import Mathlib

/-!
Verification of the trajectory-optimization core of `rrc_package`
(`traj_opt/static_object_system.py` and `traj_opt/static_object_opt.py`).

The Python source is shallowly embedded: matrices of decision variables
become lists (for the codec, which is pure layout manipulation) or
functions `Nat -> Nat -> Real` (for the symbolic constraint and cost
expressions, which are evaluated over the reals), Python slicing becomes
`List.take`/`List.drop` with Python clamping semantics, and the casadi
`reshape` operation (which raises when the element count mismatches)
becomes an `Option`-valued function.
-/

namespace RRC

/-- Number of fingers, `self.fnum = 3` in `StaticObjectSystem.__init__`. -/
def fnum : ℕ := 3

/-- Joints per finger, `self.qnum = 3` in `StaticObjectSystem.__init__`. -/
def qnum : ℕ := 3

/-- Total hand degrees of freedom, `dim = self.qnum * self.fnum` in `s_unpack`. -/
def handDim : ℕ := qnum * fnum

section Codec

variable {α : Type*}

/-- `decvar_pack(t, s, a) = vertcat(t, s, a)`: concatenation of the
time, state, and slack blocks. -/
def decvar_pack (t s a : List α) : List α := t ++ s ++ a

/-- `decvar_unpack(z)`: Python slices `z[:nGrid]`,
`z[nGrid : nGrid + 2*nGrid*fnum*qnum]`, `z[nGrid + 2*nGrid*fnum*qnum:]`,
with Python slicing semantics (out-of-range slices clamp, they never raise). -/
def decvar_unpack (nGrid : ℕ) (z : List α) : List α × List α × List α :=
  (z.take nGrid,
   (z.drop nGrid).take (2 * nGrid * handDim),
   z.drop (nGrid + 2 * nGrid * handDim))

/-- `reshape(flat, k, n).T` for a flat vector holding `n` rows of length `k`
stored row-major: row `i` is `flat[i*k : (i+1)*k]` (casadi `reshape` is
column-major, so reshaping to `k x n` and transposing yields these rows). -/
def toRows (n k : ℕ) (l : List α) : List (List α) :=
  (List.range n).map (fun i => (l.drop (i * k)).take k)

/-- `s_pack(q, dq) = vertcat(reshape(q.T, nGrid*dim, 1), reshape(dq.T, nGrid*dim, 1))`:
the column-major flattening of the transpose is the row-major (by time)
flattening of the matrix itself, i.e. the concatenation of its rows. -/
def s_pack (q dq : List (List α)) : List α := q.flatten ++ dq.flatten

/-- `s_unpack(s)`: splits `s` into `q_flat = s[:nGrid*dim]` and
`dq_flat = s[nGrid*dim:]` and applies `reshape(., dim, nGrid).T` to each.
casadi `reshape` raises when the element count differs from `dim*nGrid`,
modelled by returning `none`. -/
def s_unpack (nGrid : ℕ) (s : List α) : Option (List (List α) × List (List α)) :=
  let qf := s.take (nGrid * handDim)
  let dqf := s.drop (nGrid * handDim)
  if qf.length = nGrid * handDim ∧ dqf.length = nGrid * handDim then
    some (toRows nGrid handDim qf, toRows nGrid handDim dqf)
  else
    none

/-- Reshaping the row-major flattening of a list of `k`-element rows
recovers the rows. -/
lemma toRows_join (k : ℕ) :
    ∀ (q : List (List α)), (∀ r ∈ q, r.length = k) →
      toRows q.length k q.flatten = q := by
  intro q
  induction q with
  | nil => intro _; simp [toRows]
  | cons r q ih =>
    intro h
    have hr : r.length = k := h r (List.mem_cons_self r q)
    have hq : ∀ r ∈ q, r.length = k := fun s hs => h s (List.mem_cons_of_mem r hs)
    simp only [toRows, List.length_cons, List.range_succ_eq_map, List.map_cons,
      List.map_map, List.flatten_cons]
    congr 1
    · simp [List.take_left' hr]
    · have step : ∀ i : ℕ,
          ((r ++ q.flatten).drop (Nat.succ i * k)).take k =
            (q.flatten.drop (i * k)).take k := by
        intro i
        have : Nat.succ i * k = r.length + i * k := by
          rw [hr, Nat.succ_mul, Nat.add_comm]
        rw [this, List.drop_append]
      calc (List.range q.length).map
            ((fun i => ((r ++ q.flatten).drop (i * k)).take k) ∘ Nat.succ)
          = (List.range q.length).map (fun i => (q.flatten.drop (i * k)).take k) := by
            apply List.map_congr_left
            intro i _
            exact step i
        _ = q := ih hq

/-- Length of the row-major flattening. -/
lemma length_join_of_rows (k : ℕ) (q : List (List α))
    (h : ∀ r ∈ q, r.length = k) : q.flatten.length = q.length * k := by
  induction q with
  | nil => simp
  | cons r q ih =>
    have hr : r.length = k := h r (List.mem_cons_self r q)
    have hq : ∀ r ∈ q, r.length = k := fun s hs => h s (List.mem_cons_of_mem r hs)
    simp [ih hq, hr]
    ring

end Codec

/-- C1 : the decision-variable codec operations are exact inverses.
For a time vector of length `nGrid`, a state vector of length
`2*nGrid*fnum*qnum` and a slack vector of length `3*fnum`,
`decvar_unpack (decvar_pack t s a) = (t, s, a)` exactly; and for
`nGrid x (fnum*qnum)` matrices `q`, `dq`,
`s_unpack (s_pack q dq) = some (q, dq)` exactly, preserving the
row-major-by-time layout. -/
theorem codec_roundtrip {α : Type*} (nGrid : ℕ) :
    (∀ t s a : List α,
      t.length = nGrid → s.length = 2 * nGrid * handDim → a.length = 3 * fnum →
        decvar_unpack nGrid (decvar_pack t s a) = (t, s, a)) ∧
    (∀ q dq : List (List α),
      q.length = nGrid → dq.length = nGrid →
      (∀ r ∈ q, r.length = handDim) → (∀ r ∈ dq, r.length = handDim) →
        s_unpack nGrid (s_pack q dq) = some (q, dq)) := by
  constructor
  · intro t s a ht hs _
    unfold decvar_pack decvar_unpack
    rw [List.append_assoc]
    refine Prod.ext ?_ (Prod.ext ?_ ?_)
    · exact List.take_left' ht
    · rw [List.drop_left' ht, List.take_left' hs]
    · rw [← List.drop_drop, List.drop_left' ht, List.drop_left' hs]
  · intro q dq hq hdq hqr hdqr
    have hjq : q.flatten.length = nGrid * handDim := by
      rw [length_join_of_rows handDim q hqr, hq]
    have hjdq : dq.flatten.length = nGrid * handDim := by
      rw [length_join_of_rows handDim dq hdqr, hdq]
    unfold s_pack s_unpack
    rw [List.take_left' hjq, List.drop_left' hjq]
    simp only [hjq, hjdq, and_self, if_true]
    have e1 : toRows nGrid handDim q.flatten = q := by
      rw [← hq]; exact toRows_join handDim q hqr
    have e2 : toRows nGrid handDim dq.flatten = dq := by
      rw [← hdq]; exact toRows_join handDim dq hdqr
    rw [e1, e2]

/-- Witness for C1 at a concrete configuration: `nGrid = 2`, concrete
natural-number entries. -/
theorem codec_roundtrip_witness :
    decvar_unpack 2 (decvar_pack [10, 11] (List.range 36) [7, 7, 7, 7, 7, 7, 7, 7, 7])
        = ([10, 11], List.range 36, [7, 7, 7, 7, 7, 7, 7, 7, 7]) ∧
    s_unpack 2 (s_pack [List.range 9, List.range 9] [List.range 9, List.range 9])
        = some ([List.range 9, List.range 9], [List.range 9, List.range 9]) :=
  ⟨(codec_roundtrip 2).1 _ _ _ (by decide) (by decide) (by decide),
   (codec_roundtrip 2).2 _ _ (by decide) (by decide) (by decide) (by decide)⟩

/-- C8 counterexample : `decvar_unpack` does not fail fast on a malformed
decision vector.  At `nGrid = 2` the expected length is
`2 + 2*2*9 + 9 = 47`; on the 1-element input `[5]` the Python slices clamp
and the function silently returns a truncated time block of length 1
(together with two empty blocks) instead of raising a structural error. -/
theorem decvar_unpack_silent_truncation :
    ([5] : List ℕ).length ≠ 2 + 2 * 2 * handDim + 3 * fnum ∧
    decvar_unpack 2 ([5] : List ℕ) = ([5], [], []) ∧
    (decvar_unpack 2 ([5] : List ℕ)).1.length ≠ 2 := by
  decide

/-- C8 (amended) : only `s_unpack` fails fast — it returns an error
(modelled as `none`, casadi `reshape` raising) exactly when the state
vector length differs from `2*nGrid*fnum*qnum` — while `decvar_unpack`
performs no length validation at all: on an input shorter than `nGrid`
it silently returns the whole input as the time block and two empty
blocks. -/
theorem unpack_length_check {α : Type*} (nGrid : ℕ) :
    (∀ s : List α, s_unpack nGrid s = none ↔ s.length ≠ 2 * nGrid * handDim) ∧
    (∀ z : List α, z.length < nGrid → decvar_unpack nGrid z = (z, [], [])) := by
  constructor
  · intro s
    simp only [s_unpack, List.length_take, List.length_drop]
    have h2m : 2 * nGrid * handDim = 2 * (nGrid * handDim) := by ring
    rw [h2m]
    set m := nGrid * handDim with hm
    by_cases h : min m s.length = m ∧ s.length - m = m
    · rw [if_pos h]
      constructor
      · intro hc; exact absurd hc (by simp)
      · intro hne; exact absurd (by omega) hne
    · rw [if_neg h]
      constructor
      · intro _; omega
      · intro _; rfl
  · intro z hz
    have h1 : z.take nGrid = z := List.take_of_length_le (le_of_lt hz)
    have h2 : z.drop nGrid = [] := List.drop_eq_nil_of_le (le_of_lt hz)
    have h3 : z.drop (nGrid + 2 * nGrid * handDim) = [] :=
      List.drop_eq_nil_of_le (by omega)
    simp [decvar_unpack, h1, h2, h3]

/-- Witness for the amended C8 at `nGrid = 2` with concrete inputs. -/
theorem unpack_length_check_witness :
    (s_unpack 2 ([1, 2, 3] : List ℕ) = none ↔
      ([1, 2, 3] : List ℕ).length ≠ 2 * 2 * handDim) ∧
    ([5] : List ℕ).length < 2 ∧
    decvar_unpack 2 ([5] : List ℕ) = ([5], [], []) :=
  ⟨(unpack_length_check 2).1 [1, 2, 3], by decide,
   (unpack_length_check 2).2 [5] (by decide)⟩

section Kinematics

open Real

/-- `theta_base_deg_list = [0, -120, -240]` in `StaticObjectSystem.__init__`. -/
noncomputable def thetaDeg (f : ℕ) : ℝ := ([0, -120, -240] : List ℝ).getD f 0

/-- `theta_base = theta_base_deg * (np.pi/180)` in `FK` and `get_jacobian`. -/
noncomputable def thetaBase (f : ℕ) : ℝ := thetaDeg f * (Real.pi / 180)

/-- First (x) component of the closed-form fingertip position in `FK`. -/
noncomputable def FKx (th q1 q2 q3 : ℝ) : ℝ :=
  0.1626 * (sin q1 * sin q2 * cos th - sin th * cos q2) * sin q3
    - 0.1626 * (sin q1 * cos q2 * cos th + sin q2 * sin th) * cos q3
    - 0.16 * sin q1 * cos q2 * cos th - 0.16 * sin q2 * sin th
    - 0.0505 * sin th + 0.08457 * cos q1 * cos th

/-- Second (y) component of the closed-form fingertip position in `FK`. -/
noncomputable def FKy (th q1 q2 q3 : ℝ) : ℝ :=
  0.1626 * (sin q1 * sin q2 * sin th + cos q2 * cos th) * sin q3
    - 0.1626 * (sin q1 * sin th * cos q2 - sin q2 * cos th) * cos q3
    - 0.16 * sin q1 * sin th * cos q2 + 0.16 * sin q2 * cos th
    + 0.08457 * sin th * cos q1 + 0.0505 * cos th

/-- Third (z) component of the closed-form fingertip position in `FK`. -/
noncomputable def FKz (_th q1 q2 q3 : ℝ) : ℝ :=
  -0.08457 * sin q1 + 0.1626 * sin q2 * sin q3 * cos q1
    - 0.1626 * cos q1 * cos q2 * cos q3 - 0.16 * cos q1 * cos q2 + 0.29

/-- `FK(q_cur)[f][d]`: component `d` of the fingertip position of finger `f`
for a joint row `q_cur`, reading `q1 = q_cur[qnum*f]`, `q2 = q_cur[qnum*f+1]`,
`q3 = q_cur[qnum*f+2]` and the base angle of finger `f`. -/
noncomputable def FKcomp (f d : ℕ) (qrow : ℕ → ℝ) : ℝ :=
  let th := thetaBase f
  let q1 := qrow (qnum * f)
  let q2 := qrow (qnum * f + 1)
  let q3 := qrow (qnum * f + 2)
  match d with
  | 0 => FKx th q1 q2 q3
  | 1 => FKy th q1 q2 q3
  | _ => FKz th q1 q2 q3

/-- Entry `(r, c)` of the per-finger `3x3` Jacobian `one_finger_J`
in `get_jacobian`, transcribed from the source. -/
noncomputable def Jentry (r c : ℕ) (th q1 q2 q3 : ℝ) : ℝ :=
  match r, c with
  | 0, 0 => -0.08457 * sin q1 * cos th + 0.1626 * sin q2 * sin q3 * cos q1 * cos th
      - 0.1626 * cos q1 * cos q2 * cos q3 * cos th - 0.16 * cos q1 * cos q2 * cos th
  | 0, 1 => (0.1626 * sin q1 * sin q2 * cos th - 0.1626 * sin th * cos q2) * cos q3
      + (0.1626 * sin q1 * cos q2 * cos th + 0.1626 * sin q2 * sin th) * sin q3
      + 0.16 * sin q1 * sin q2 * cos th - 0.16 * sin th * cos q2
  | 0, 2 => (0.1626 * sin q1 * sin q2 * cos th - 0.1626 * sin th * cos q2) * cos q3
      - (-0.1626 * sin q1 * cos q2 * cos th - 0.1626 * sin q2 * sin th) * sin q3
  | 1, 0 => -0.08457 * sin q1 * sin th + 0.1626 * sin q2 * sin q3 * sin th * cos q1
      - 0.1626 * sin th * cos q1 * cos q2 * cos q3 - 0.16 * sin th * cos q1 * cos q2
  | 1, 1 => (0.1626 * sin q1 * sin q2 * sin th + 0.1626 * cos q2 * cos th) * cos q3
      + (0.1626 * sin q1 * sin th * cos q2 - 0.1626 * sin q2 * cos th) * sin q3
      + 0.16 * sin q1 * sin q2 * sin th + 0.16 * cos q2 * cos th
  | 1, 2 => (0.1626 * sin q1 * sin q2 * sin th + 0.1626 * cos q2 * cos th) * cos q3
      - (-0.1626 * sin q1 * sin th * cos q2 + 0.1626 * sin q2 * cos th) * sin q3
  | 2, 0 => -0.1626 * sin q1 * sin q2 * sin q3 + 0.1626 * sin q1 * cos q2 * cos q3
      + 0.16 * sin q1 * cos q2 - 0.08457 * cos q1
  | 2, 1 => 0.1626 * sin q2 * cos q1 * cos q3 + 0.16 * sin q2 * cos q1
      + 0.1626 * sin q3 * cos q1 * cos q2
  | 2, 2 => 0.1626 * sin q2 * cos q1 * cos q3 + 0.1626 * sin q3 * cos q1 * cos q2
  | _, _ => 0

/-- `get_jacobian(q_cur)`: the `3*fnum x fnum*qnum` hand Jacobian.
The source starts from `np.zeros((fnum*3, fnum*qnum))` and writes the
per-finger block `one_finger_J` into rows and columns `3*f .. 3*f+2`,
so entry `(r, c)` is the per-finger entry when `r` and `c` fall in the
same finger block and `0` otherwise. -/
noncomputable def get_jacobian (qrow : ℕ → ℝ) :
    Matrix (Fin (3 * fnum)) (Fin (fnum * qnum)) ℝ :=
  fun r c =>
    if (r : ℕ) / 3 = (c : ℕ) / 3 then
      Jentry ((r : ℕ) % 3) ((c : ℕ) % 3) (thetaBase ((r : ℕ) / 3))
        (qrow (qnum * ((r : ℕ) / 3))) (qrow (qnum * ((r : ℕ) / 3) + 1))
        (qrow (qnum * ((r : ℕ) / 3) + 2))
    else 0

end Kinematics

section Constraints

/-- `self.MAX_FT_R = 0.195` in `StaticObjectSystem.__init__`. -/
noncomputable def MAX_FT_R : ℝ := 0.195

/-- A constraint record: expression value, lower bound, upper bound
(`np.inf` modelled as the top element of `WithTop`). -/
def ConTriple : Type := ℝ × ℝ × WithTop ℝ

/-- Collocation block of `get_constraints`: for each `i` in
`range(nGrid - 1)` and each joint `j` in `range(fnum*qnum)`, the defect
`0.5*(t[i+1]-t[i])*(dq[i+1,j]+dq[i,j]) + q[i,j] - q[i+1,j]` appended with
`lbg = 0` and `ubg = 0`. -/
noncomputable def collocationTriples (nGrid : ℕ) (t : ℕ → ℝ) (q dq : ℕ → ℕ → ℝ) :
    List ConTriple :=
  (List.range (nGrid - 1)).flatMap fun i =>
    (List.range (fnum * qnum)).map fun j =>
      (0.5 * (t (i + 1) - t i) * (dq (i + 1) j + dq i j) + q i j - q (i + 1) j,
       (0 : ℝ), ((0 : ℝ) : WithTop ℝ))

/-- `ft_goal_constraint(s, a)` as appended by `get_constraints`: for each
finger `f` and axis `d`, `a[f*3+d] - (ft_goal[f*3+d] - FK(q[-1,:])[f][d])^2`
with `lbg = 0` and `ubg = np.inf`.  The fingertip position is evaluated at
the last grid row `q[-1, :] = q[nGrid-1, :]` only. -/
noncomputable def ftGoalTriples (nGrid : ℕ) (q : ℕ → ℕ → ℝ) (a goal : ℕ → ℝ) :
    List ConTriple :=
  (List.range fnum).flatMap fun f =>
    (List.range 3).map fun d =>
      (a (f * 3 + d) - (goal (f * 3 + d) - FKcomp f d (q (nGrid - 1))) ^ 2,
       (0 : ℝ), (⊤ : WithTop ℝ))

/-- `arena_constraint(s)` as appended by `get_constraints`: for each grid
index in `range(10, nGrid)` and each finger, the pair
`MAX_FT_R - norm_2(ft[0:2])` and `ft[2] - 0.01`, each with `lbg = 0` and
`ubg = np.inf`. -/
noncomputable def arenaTriples (nGrid : ℕ) (q : ℕ → ℕ → ℝ) : List ConTriple :=
  (List.range' 10 (nGrid - 10)).flatMap fun i =>
    (List.range fnum).flatMap fun f =>
      [(MAX_FT_R - Real.sqrt (FKcomp f 0 (q i) ^ 2 + FKcomp f 1 (q i) ^ 2),
        (0 : ℝ), (⊤ : WithTop ℝ)),
       (FKcomp f 2 (q i) - 0.01, (0 : ℝ), (⊤ : WithTop ℝ))]

end Constraints

/-- C2 : each collocation defect is an equality constraint (lower bound 0,
upper bound 0) of the trapezoidal form, one per consecutive grid pair and
joint; on a trajectory with constant velocity `dq i j = v j`,
`q (i+1) j = q i j + dt * v j`, and the time grid at its pinned uniform
spacing `t i = i * dt`, the whole block evaluates to exactly
`(nGrid-1) * fnum * qnum` copies of the zero equality `(0, 0, 0)`. -/
theorem collocation_zero_residual (nGrid : ℕ) (dt : ℝ) (t : ℕ → ℝ)
    (q dq : ℕ → ℕ → ℝ) (v : ℕ → ℝ)
    (ht : ∀ i, t i = (i : ℝ) * dt)
    (hdq : ∀ i j, dq i j = v j)
    (hq : ∀ i j, q (i + 1) j = q i j + dt * v j) :
    collocationTriples nGrid t q dq =
      List.replicate ((nGrid - 1) * (fnum * qnum))
        ((0 : ℝ), (0 : ℝ), ((0 : ℝ) : WithTop ℝ)) := by
  rw [List.eq_replicate_iff]
  constructor
  · simp only [collocationTriples, List.length_flatMap, Function.comp_def,
      List.length_map, List.length_range, List.map_const', List.sum_replicate,
      smul_eq_mul]
  · intro b hb
    simp only [collocationTriples, List.mem_flatMap, List.mem_map,
      List.mem_range] at hb
    obtain ⟨i, _, j, _, hbe⟩ := hb
    have hdt : t (i + 1) - t i = dt := by
      rw [ht (i + 1), ht i]
      push_cast
      ring
    rw [← hbe, hdt, hdq (i + 1) j, hdq i j, hq i j]
    refine Prod.ext ?_ rfl
    simp only
    ring

/-- Witness for C2: `nGrid = 3`, `dt = 1`, the zero trajectory. -/
theorem collocation_zero_residual_witness :
    collocationTriples 3 (fun i => (i : ℝ)) (fun _ _ => 0) (fun _ _ => 0) =
      List.replicate (2 * (fnum * qnum)) ((0 : ℝ), (0 : ℝ), ((0 : ℝ) : WithTop ℝ)) :=
  collocation_zero_residual 3 1 _ _ _ (fun _ => 0)
    (fun i => by ring) (fun _ _ => rfl) (fun _ _ => by norm_num)

/-- C3 : the terminal goal constraint family consists, for each finger `f`
and axis `d`, of the inequality `a[f*3+d] - (goal[f*3+d] - FK(q_last)[f][d])^2`
with lower bound `0` and upper bound `+inf`, where `q_last` is the joint row
at grid index `nGrid - 1`; and the family depends only on that last row, so
no goal constraint involves any earlier grid index: two trajectories that
agree on row `nGrid - 1` produce identical goal constraints. -/
theorem ft_goal_terminal_only (nGrid : ℕ) (q q' : ℕ → ℕ → ℝ) (a goal : ℕ → ℝ)
    (hlast : ∀ j, q (nGrid - 1) j = q' (nGrid - 1) j) :
    ftGoalTriples nGrid q a goal = ftGoalTriples nGrid q' a goal ∧
    ∀ x : ConTriple, x ∈ ftGoalTriples nGrid q a goal ↔
      ∃ f d : ℕ, f < fnum ∧ d < 3 ∧
        x = (a (f * 3 + d) - (goal (f * 3 + d) - FKcomp f d (q (nGrid - 1))) ^ 2,
             (0 : ℝ), (⊤ : WithTop ℝ)) := by
  have hrow : q (nGrid - 1) = q' (nGrid - 1) := funext hlast
  constructor
  · simp only [ftGoalTriples, hrow]
  · intro x
    simp only [ftGoalTriples, List.mem_flatMap, List.mem_map, List.mem_range]
    constructor
    · rintro ⟨f, hf, d, hd, hx⟩
      exact ⟨f, d, hf, hd, hx.symm⟩
    · rintro ⟨f, d, hf, hd, hx⟩
      exact ⟨f, hf, d, hd, hx.symm⟩

/-- Witness for C3: `nGrid = 2` with two trajectories that differ at grid
index 0 but agree at the last grid index 1. -/
theorem ft_goal_terminal_only_witness :
    (ftGoalTriples 2 (fun i _ => if i = 0 then 1 else 0) (fun _ => 0) (fun _ => 0) =
      ftGoalTriples 2 (fun _ _ => 0) (fun _ => 0) (fun _ => 0)) ∧
    ∀ x : ConTriple,
      x ∈ ftGoalTriples 2 (fun i _ => if i = 0 then 1 else 0) (fun _ => 0) (fun _ => 0) ↔
      ∃ f d : ℕ, f < fnum ∧ d < 3 ∧
        x = ((fun _ => (0 : ℝ)) (f * 3 + d) -
              ((fun _ => (0 : ℝ)) (f * 3 + d) -
                FKcomp f d ((fun i (_ : ℕ) => if i = 0 then (1 : ℝ) else 0) (2 - 1))) ^ 2,
             (0 : ℝ), (⊤ : WithTop ℝ)) :=
  ft_goal_terminal_only 2 _ _ _ _ (fun _ => by norm_num)

/-- C5 : the arena constraint family contains exactly, for every grid index
`i` with `10 ≤ i < nGrid` and every finger `f < fnum`, the two inequalities
`MAX_FT_R - sqrt(ft_x^2 + ft_y^2)` and `ft_z - 0.01`, each with lower bound
`0` and upper bound `+inf`, where the fingertip position is the forward
kinematics of the joint row at grid index `i`; and `MAX_FT_R = 0.195`. -/
theorem arena_membership (nGrid : ℕ) (q : ℕ → ℕ → ℝ) (x : ConTriple) :
    MAX_FT_R = 0.195 ∧
    (x ∈ arenaTriples nGrid q ↔
      ∃ i f : ℕ, 10 ≤ i ∧ i < nGrid ∧ f < fnum ∧
        (x = (MAX_FT_R - Real.sqrt (FKcomp f 0 (q i) ^ 2 + FKcomp f 1 (q i) ^ 2),
              (0 : ℝ), (⊤ : WithTop ℝ)) ∨
         x = (FKcomp f 2 (q i) - 0.01, (0 : ℝ), (⊤ : WithTop ℝ)))) := by
  refine ⟨rfl, ?_⟩
  simp only [arenaTriples, List.mem_flatMap, List.mem_range', List.mem_range,
    List.mem_cons, List.mem_singleton, List.not_mem_nil, or_false]
  constructor
  · rintro ⟨i, ⟨k, hk, hik⟩, f, hf, hx⟩
    exact ⟨i, f, by omega, by omega, hf, hx⟩
  · rintro ⟨i, f, h10, hn, hf, hx⟩
    exact ⟨i, ⟨i - 10, by omega, by omega⟩, f, hf, hx⟩

/-- C9 : the arena cut-in index is the fixed literal `10` in
`arena_constraint` (`range(10, self.nGrid)`), independent of `nGrid` and
`dt`; consequently for every configuration with `nGrid <= 10` the arena
constraint family is empty — no workspace-radius or ground-clearance
constraint is imposed anywhere. -/
theorem arena_empty_small_grid (nGrid : ℕ) (q : ℕ → ℕ → ℝ)
    (h : nGrid ≤ 10) : arenaTriples nGrid q = [] := by
  have h0 : nGrid - 10 = 0 := by omega
  simp [arenaTriples, h0]

/-- Witness for C9 at `nGrid = 7`. -/
theorem arena_empty_small_grid_witness :
    arenaTriples 7 (fun _ _ => 0) = [] :=
  arena_empty_small_grid 7 _ (by norm_num)

section Cost

/-- `collision_weight = 0` in `cost_func` (the commented alternative `0.03`
is not active). -/
noncomputable def collision_weight : ℝ := 0

/-- The smooth-max collision penalty of `cost_func` as a function of the
pnorm value of one collision-sphere center:
`((pnorm_min - pnorm) * e^(alpha*(pnorm_min - pnorm))) / (1 + e^(alpha*(pnorm_min - pnorm)))`
with `pnorm_min = 1.2` and `alpha = 8`. -/
noncomputable def collisionPenalty (pnorm : ℝ) : ℝ :=
  ((1.2 - pnorm) * Real.exp (8 * (1.2 - pnorm))) / (1 + Real.exp (8 * (1.2 - pnorm)))

/-- `cost_func(t, s_flat, a)` of `StaticObjectOpt`.  The slack block is
summed against the fixed weight `150`; the tracking term uses
`Q = np.eye(qnum) * 6` as the full bilinear form `delta.T @ Q @ delta`;
the velocity term uses `R = np.eye(fnum*qnum) * 0.01` as
`dq_cur @ R @ dq_cur.T`; the collision term multiplies each smooth-max
penalty by `collision_weight`.  The sphere-center/pnorm pipeline
(`FingerModel.get_sphere_centers_wf` composed with `get_pnorm_of_pos_wf`)
lives in source files outside this repository snapshot, so it is abstracted
as a parameter `P pose f s jointSlice` giving the pnorm of sphere `s` of
finger `f` (source loops link `l_i in [3]` only, with `nSph f` sphere
centers), applied to the finger's own joint slice `q_cur[qnum*f : qnum*f+qnum]`. -/
noncomputable def cost_func (nGrid : ℕ) (nSph : ℕ → ℕ)
    (P : (Fin 7 → ℝ) → ℕ → ℕ → (ℕ → ℝ) → ℝ)
    (q dq : ℕ → ℕ → ℝ) (a goal : ℕ → ℝ) (pose : Fin 7 → ℝ) : ℝ :=
  (∑ i ∈ Finset.range (3 * fnum), a i * 150)
  + (∑ i ∈ Finset.range nGrid, ∑ f ∈ Finset.range fnum,
      0.5 * ∑ d ∈ Finset.range 3, ∑ e ∈ Finset.range 3,
        (goal (3 * f + d) - FKcomp f d (q i)) * (if d = e then (6 : ℝ) else 0) *
          (goal (3 * f + e) - FKcomp f e (q i)))
  + (∑ i ∈ Finset.range nGrid,
      0.5 * ∑ j ∈ Finset.range (fnum * qnum), ∑ k ∈ Finset.range (fnum * qnum),
        dq i j * (if j = k then (0.01 : ℝ) else 0) * dq i k)
  + (∑ i ∈ Finset.range nGrid, ∑ f ∈ Finset.range fnum,
      ∑ s ∈ Finset.range (nSph f),
        collisionPenalty (P pose f s (fun j => q i (qnum * f + j))) * collision_weight)

/-- A bilinear form against a diagonal matrix collapses to a weighted sum
of squares. -/
lemma diag_quadform (n : ℕ) (c : ℝ) (g : ℕ → ℝ) :
    (∑ d ∈ Finset.range n, ∑ e ∈ Finset.range n,
        g d * (if d = e then c else 0) * g e)
      = c * ∑ d ∈ Finset.range n, g d ^ 2 := by
  rw [Finset.mul_sum]
  apply Finset.sum_congr rfl
  intro d hd
  rw [Finset.sum_eq_single d]
  · rw [if_pos rfl]
    ring
  · intro e _ hne
    simp [Ne.symm hne]
  · intro hd2
    exact absurd hd hd2

end Cost

/-- C4 : the assembled scalar cost is exactly the sum of a slack penalty
`(sum of all 3*fnum slacks) * 150`, a tracking term at every grid index of
`0.5 * 6 * |goal - fingertip|^2` per finger (the quadratic form against the
diagonal positive matrix `Q = 6*I`), a velocity regularization at every
grid index of `0.5 * 0.01 * |dq|^2` (diagonal small positive `R = 0.01*I`),
and the optional collision penalty term, which contributes `0` at its
default weight. -/
theorem cost_decomposition (nGrid : ℕ) (nSph : ℕ → ℕ)
    (P : (Fin 7 → ℝ) → ℕ → ℕ → (ℕ → ℝ) → ℝ)
    (q dq : ℕ → ℕ → ℝ) (a goal : ℕ → ℝ) (pose : Fin 7 → ℝ) :
    cost_func nGrid nSph P q dq a goal pose =
      (∑ i ∈ Finset.range (3 * fnum), a i) * 150
      + (∑ i ∈ Finset.range nGrid, ∑ f ∈ Finset.range fnum,
          0.5 * 6 * ∑ d ∈ Finset.range 3, (goal (3 * f + d) - FKcomp f d (q i)) ^ 2)
      + (∑ i ∈ Finset.range nGrid,
          0.5 * 0.01 * ∑ j ∈ Finset.range (fnum * qnum), dq i j ^ 2) := by
  unfold cost_func
  simp only [collision_weight, mul_zero, Finset.sum_const_zero, add_zero]
  rw [← Finset.sum_mul]
  congr 1
  congr 1
  · apply Finset.sum_congr rfl
    intro i _
    apply Finset.sum_congr rfl
    intro f _
    rw [diag_quadform 3 6 (fun d => goal (3 * f + d) - FKcomp f d (q i))]
    ring
  · apply Finset.sum_congr rfl
    intro i _
    rw [diag_quadform (fnum * qnum) 0.01 (fun j => dq i j)]
    ring

/-- C10 : with the default collision weight `0`, the assembled cost does
not depend on the object-pose parameter: for any decision-vector value and
any abstract sphere-pnorm pipeline, two different pose parameter values
(with the fingertip-goal parameter held equal) give the same cost. -/
theorem cost_pose_independent (nGrid : ℕ) (nSph : ℕ → ℕ)
    (P : (Fin 7 → ℝ) → ℕ → ℕ → (ℕ → ℝ) → ℝ)
    (q dq : ℕ → ℕ → ℝ) (a goal : ℕ → ℝ) (pose1 pose2 : Fin 7 → ℝ) :
    cost_func nGrid nSph P q dq a goal pose1 =
      cost_func nGrid nSph P q dq a goal pose2 := by
  unfold cost_func
  simp only [collision_weight, mul_zero, Finset.sum_const_zero]

section Jacobian

open Real

/-- Derivative of a function linear in `sin` and `cos`.  Every fingertip
coordinate is of this shape in each single joint angle. -/
lemma hasDerivAt_sincos (A B C x : ℝ) :
    HasDerivAt (fun u => A * Real.sin u + B * Real.cos u + C)
      (A * Real.cos x - B * Real.sin x) x := by
  have h1 : HasDerivAt (fun u => A * Real.sin u) (A * Real.cos x) x :=
    (Real.hasDerivAt_sin x).const_mul A
  have h2 : HasDerivAt (fun u => B * Real.cos u) (B * (-Real.sin x)) x :=
    (Real.hasDerivAt_cos x).const_mul B
  have h3 := (h1.add h2).add_const C
  convert h3 using 1
  ring

lemma hasDerivAt_FKx_q1 (th q1 q2 q3 : ℝ) :
    HasDerivAt (fun x => FKx th x q2 q3) (Jentry 0 0 th q1 q2 q3) q1 := by
  have h := hasDerivAt_sincos
    (0.1626 * sin q2 * cos th * sin q3 - 0.1626 * cos q2 * cos th * cos q3
      - 0.16 * cos q2 * cos th)
    (0.08457 * cos th)
    (-0.1626 * sin th * cos q2 * sin q3 - 0.1626 * sin q2 * sin th * cos q3
      - 0.16 * sin q2 * sin th - 0.0505 * sin th) q1
  have e1 : (fun x => FKx th x q2 q3) =
      (fun x => (0.1626 * sin q2 * cos th * sin q3 - 0.1626 * cos q2 * cos th * cos q3
          - 0.16 * cos q2 * cos th) * Real.sin x + (0.08457 * cos th) * Real.cos x
        + (-0.1626 * sin th * cos q2 * sin q3 - 0.1626 * sin q2 * sin th * cos q3
          - 0.16 * sin q2 * sin th - 0.0505 * sin th)) := by
    funext x
    simp only [FKx]
    ring
  have e2 : Jentry 0 0 th q1 q2 q3 =
      (0.1626 * sin q2 * cos th * sin q3 - 0.1626 * cos q2 * cos th * cos q3
        - 0.16 * cos q2 * cos th) * Real.cos q1 - (0.08457 * cos th) * Real.sin q1 := by
    simp only [Jentry]
    ring
  rw [e1, e2]
  exact h

lemma hasDerivAt_FKx_q2 (th q1 q2 q3 : ℝ) :
    HasDerivAt (fun x => FKx th q1 x q3) (Jentry 0 1 th q1 q2 q3) q2 := by
  have h := hasDerivAt_sincos
    (0.1626 * sin q1 * cos th * sin q3 - 0.1626 * sin th * cos q3 - 0.16 * sin th)
    (-0.1626 * sin th * sin q3 - 0.1626 * sin q1 * cos th * cos q3
      - 0.16 * sin q1 * cos th)
    (-0.0505 * sin th + 0.08457 * cos q1 * cos th) q2
  have e1 : (fun x => FKx th q1 x q3) =
      (fun x => (0.1626 * sin q1 * cos th * sin q3 - 0.1626 * sin th * cos q3
          - 0.16 * sin th) * Real.sin x
        + (-0.1626 * sin th * sin q3 - 0.1626 * sin q1 * cos th * cos q3
          - 0.16 * sin q1 * cos th) * Real.cos x
        + (-0.0505 * sin th + 0.08457 * cos q1 * cos th)) := by
    funext x
    simp only [FKx]
    ring
  have e2 : Jentry 0 1 th q1 q2 q3 =
      (0.1626 * sin q1 * cos th * sin q3 - 0.1626 * sin th * cos q3
        - 0.16 * sin th) * Real.cos q2
      - (-0.1626 * sin th * sin q3 - 0.1626 * sin q1 * cos th * cos q3
        - 0.16 * sin q1 * cos th) * Real.sin q2 := by
    simp only [Jentry]
    ring
  rw [e1, e2]
  exact h

lemma hasDerivAt_FKx_q3 (th q1 q2 q3 : ℝ) :
    HasDerivAt (fun x => FKx th q1 q2 x) (Jentry 0 2 th q1 q2 q3) q3 := by
  have h := hasDerivAt_sincos
    (0.1626 * (sin q1 * sin q2 * cos th - sin th * cos q2))
    (-0.1626 * (sin q1 * cos q2 * cos th + sin q2 * sin th))
    (-0.16 * sin q1 * cos q2 * cos th - 0.16 * sin q2 * sin th
      - 0.0505 * sin th + 0.08457 * cos q1 * cos th) q3
  have e1 : (fun x => FKx th q1 q2 x) =
      (fun x => (0.1626 * (sin q1 * sin q2 * cos th - sin th * cos q2)) * Real.sin x
        + (-0.1626 * (sin q1 * cos q2 * cos th + sin q2 * sin th)) * Real.cos x
        + (-0.16 * sin q1 * cos q2 * cos th - 0.16 * sin q2 * sin th
          - 0.0505 * sin th + 0.08457 * cos q1 * cos th)) := by
    funext x
    simp only [FKx]
    ring
  have e2 : Jentry 0 2 th q1 q2 q3 =
      (0.1626 * (sin q1 * sin q2 * cos th - sin th * cos q2)) * Real.cos q3
      - (-0.1626 * (sin q1 * cos q2 * cos th + sin q2 * sin th)) * Real.sin q3 := by
    simp only [Jentry]
    ring
  rw [e1, e2]
  exact h

lemma hasDerivAt_FKy_q1 (th q1 q2 q3 : ℝ) :
    HasDerivAt (fun x => FKy th x q2 q3) (Jentry 1 0 th q1 q2 q3) q1 := by
  have h := hasDerivAt_sincos
    (0.1626 * sin q2 * sin th * sin q3 - 0.1626 * sin th * cos q2 * cos q3
      - 0.16 * sin th * cos q2)
    (0.08457 * sin th)
    (0.1626 * cos q2 * cos th * sin q3 + 0.1626 * sin q2 * cos th * cos q3
      + 0.16 * sin q2 * cos th + 0.0505 * cos th) q1
  have e1 : (fun x => FKy th x q2 q3) =
      (fun x => (0.1626 * sin q2 * sin th * sin q3 - 0.1626 * sin th * cos q2 * cos q3
          - 0.16 * sin th * cos q2) * Real.sin x + (0.08457 * sin th) * Real.cos x
        + (0.1626 * cos q2 * cos th * sin q3 + 0.1626 * sin q2 * cos th * cos q3
          + 0.16 * sin q2 * cos th + 0.0505 * cos th)) := by
    funext x
    simp only [FKy]
    ring
  have e2 : Jentry 1 0 th q1 q2 q3 =
      (0.1626 * sin q2 * sin th * sin q3 - 0.1626 * sin th * cos q2 * cos q3
        - 0.16 * sin th * cos q2) * Real.cos q1 - (0.08457 * sin th) * Real.sin q1 := by
    simp only [Jentry]
    ring
  rw [e1, e2]
  exact h

lemma hasDerivAt_FKy_q2 (th q1 q2 q3 : ℝ) :
    HasDerivAt (fun x => FKy th q1 x q3) (Jentry 1 1 th q1 q2 q3) q2 := by
  have h := hasDerivAt_sincos
    (0.1626 * sin q1 * sin th * sin q3 + 0.1626 * cos th * cos q3 + 0.16 * cos th)
    (0.1626 * cos th * sin q3 - 0.1626 * sin q1 * sin th * cos q3
      - 0.16 * sin q1 * sin th)
    (0.08457 * sin th * cos q1 + 0.0505 * cos th) q2
  have e1 : (fun x => FKy th q1 x q3) =
      (fun x => (0.1626 * sin q1 * sin th * sin q3 + 0.1626 * cos th * cos q3
          + 0.16 * cos th) * Real.sin x
        + (0.1626 * cos th * sin q3 - 0.1626 * sin q1 * sin th * cos q3
          - 0.16 * sin q1 * sin th) * Real.cos x
        + (0.08457 * sin th * cos q1 + 0.0505 * cos th)) := by
    funext x
    simp only [FKy]
    ring
  have e2 : Jentry 1 1 th q1 q2 q3 =
      (0.1626 * sin q1 * sin th * sin q3 + 0.1626 * cos th * cos q3
        + 0.16 * cos th) * Real.cos q2
      - (0.1626 * cos th * sin q3 - 0.1626 * sin q1 * sin th * cos q3
        - 0.16 * sin q1 * sin th) * Real.sin q2 := by
    simp only [Jentry]
    ring
  rw [e1, e2]
  exact h

lemma hasDerivAt_FKy_q3 (th q1 q2 q3 : ℝ) :
    HasDerivAt (fun x => FKy th q1 q2 x) (Jentry 1 2 th q1 q2 q3) q3 := by
  have h := hasDerivAt_sincos
    (0.1626 * (sin q1 * sin q2 * sin th + cos q2 * cos th))
    (-0.1626 * (sin q1 * sin th * cos q2 - sin q2 * cos th))
    (-0.16 * sin q1 * sin th * cos q2 + 0.16 * sin q2 * cos th
      + 0.08457 * sin th * cos q1 + 0.0505 * cos th) q3
  have e1 : (fun x => FKy th q1 q2 x) =
      (fun x => (0.1626 * (sin q1 * sin q2 * sin th + cos q2 * cos th)) * Real.sin x
        + (-0.1626 * (sin q1 * sin th * cos q2 - sin q2 * cos th)) * Real.cos x
        + (-0.16 * sin q1 * sin th * cos q2 + 0.16 * sin q2 * cos th
          + 0.08457 * sin th * cos q1 + 0.0505 * cos th)) := by
    funext x
    simp only [FKy]
    ring
  have e2 : Jentry 1 2 th q1 q2 q3 =
      (0.1626 * (sin q1 * sin q2 * sin th + cos q2 * cos th)) * Real.cos q3
      - (-0.1626 * (sin q1 * sin th * cos q2 - sin q2 * cos th)) * Real.sin q3 := by
    simp only [Jentry]
    ring
  rw [e1, e2]
  exact h

lemma hasDerivAt_FKz_q1 (th q1 q2 q3 : ℝ) :
    HasDerivAt (fun x => FKz th x q2 q3) (Jentry 2 0 th q1 q2 q3) q1 := by
  have h := hasDerivAt_sincos (-0.08457)
    (0.1626 * sin q2 * sin q3 - 0.1626 * cos q2 * cos q3 - 0.16 * cos q2)
    (0.29) q1
  have e1 : (fun x => FKz th x q2 q3) =
      (fun x => (-0.08457) * Real.sin x
        + (0.1626 * sin q2 * sin q3 - 0.1626 * cos q2 * cos q3 - 0.16 * cos q2) * Real.cos x
        + (0.29)) := by
    funext x
    simp only [FKz]
    ring
  have e2 : Jentry 2 0 th q1 q2 q3 =
      (-0.08457) * Real.cos q1
      - (0.1626 * sin q2 * sin q3 - 0.1626 * cos q2 * cos q3 - 0.16 * cos q2) * Real.sin q1 := by
    simp only [Jentry]
    ring
  rw [e1, e2]
  exact h

lemma hasDerivAt_FKz_q2 (th q1 q2 q3 : ℝ) :
    HasDerivAt (fun x => FKz th q1 x q3) (Jentry 2 1 th q1 q2 q3) q2 := by
  have h := hasDerivAt_sincos
    (0.1626 * sin q3 * cos q1)
    (-0.1626 * cos q1 * cos q3 - 0.16 * cos q1)
    (-0.08457 * sin q1 + 0.29) q2
  have e1 : (fun x => FKz th q1 x q3) =
      (fun x => (0.1626 * sin q3 * cos q1) * Real.sin x
        + (-0.1626 * cos q1 * cos q3 - 0.16 * cos q1) * Real.cos x
        + (-0.08457 * sin q1 + 0.29)) := by
    funext x
    simp only [FKz]
    ring
  have e2 : Jentry 2 1 th q1 q2 q3 =
      (0.1626 * sin q3 * cos q1) * Real.cos q2
      - (-0.1626 * cos q1 * cos q3 - 0.16 * cos q1) * Real.sin q2 := by
    simp only [Jentry]
    ring
  rw [e1, e2]
  exact h

lemma hasDerivAt_FKz_q3 (th q1 q2 q3 : ℝ) :
    HasDerivAt (fun x => FKz th q1 q2 x) (Jentry 2 2 th q1 q2 q3) q3 := by
  have h := hasDerivAt_sincos
    (0.1626 * sin q2 * cos q1)
    (-0.1626 * cos q1 * cos q2)
    (-0.16 * cos q1 * cos q2 + 0.29 - 0.08457 * sin q1) q3
  have e1 : (fun x => FKz th q1 q2 x) =
      (fun x => (0.1626 * sin q2 * cos q1) * Real.sin x
        + (-0.1626 * cos q1 * cos q2) * Real.cos x
        + (-0.16 * cos q1 * cos q2 + 0.29 - 0.08457 * sin q1)) := by
    funext x
    simp only [FKz]
    ring
  have e2 : Jentry 2 2 th q1 q2 q3 =
      (0.1626 * sin q2 * cos q1) * Real.cos q3
      - (-0.1626 * cos q1 * cos q2) * Real.sin q3 := by
    simp only [Jentry]
    ring
  rw [e1, e2]
  exact h

/-- The `3x3` Jacobian block of finger `f` holds the partial derivatives of
the fingertip map of that finger: entry `(d, e)` is the derivative of
coordinate `d` with respect to joint `e` of the finger, taken at the
finger's joint slice of `qrow`. -/
lemma hasDerivAt_FKcomp (f d e : ℕ) (hd : d < 3) (he : e < 3) (qrow : ℕ → ℝ) :
    HasDerivAt (fun x => FKcomp f d (Function.update qrow (qnum * f + e) x))
      (Jentry d e (thetaBase f) (qrow (qnum * f)) (qrow (qnum * f + 1))
        (qrow (qnum * f + 2)))
      (qrow (qnum * f + e)) := by
  interval_cases d <;> interval_cases e
  · have hfun : (fun x : ℝ => FKcomp f 0 (Function.update qrow (qnum * f + 0) x)) =
        (fun x : ℝ => FKx (thetaBase f) x (qrow (qnum * f + 1)) (qrow (qnum * f + 2))) := by
      funext x
      simp only [FKcomp, Nat.add_zero]
      rw [Function.update_same,
          Function.update_noteq (by omega : qnum * f + 1 ≠ qnum * f) x qrow,
          Function.update_noteq (by omega : qnum * f + 2 ≠ qnum * f) x qrow]
    rw [hfun]
    exact hasDerivAt_FKx_q1 _ _ _ _
  · have hfun : (fun x : ℝ => FKcomp f 0 (Function.update qrow (qnum * f + 1) x)) =
        (fun x : ℝ => FKx (thetaBase f) (qrow (qnum * f + 0)) x (qrow (qnum * f + 2))) := by
      funext x
      simp only [FKcomp, Nat.add_zero]
      rw [Function.update_same,
          Function.update_noteq (by omega : qnum * f ≠ qnum * f + 1) x qrow,
          Function.update_noteq (by omega : qnum * f + 2 ≠ qnum * f + 1) x qrow]
    rw [hfun]
    exact hasDerivAt_FKx_q2 _ _ _ _
  · have hfun : (fun x : ℝ => FKcomp f 0 (Function.update qrow (qnum * f + 2) x)) =
        (fun x : ℝ => FKx (thetaBase f) (qrow (qnum * f + 0)) (qrow (qnum * f + 1)) x) := by
      funext x
      simp only [FKcomp, Nat.add_zero]
      rw [Function.update_same,
          Function.update_noteq (by omega : qnum * f ≠ qnum * f + 2) x qrow,
          Function.update_noteq (by omega : qnum * f + 1 ≠ qnum * f + 2) x qrow]
    rw [hfun]
    exact hasDerivAt_FKx_q3 _ _ _ _
  · have hfun : (fun x : ℝ => FKcomp f 1 (Function.update qrow (qnum * f + 0) x)) =
        (fun x : ℝ => FKy (thetaBase f) x (qrow (qnum * f + 1)) (qrow (qnum * f + 2))) := by
      funext x
      simp only [FKcomp, Nat.add_zero]
      rw [Function.update_same,
          Function.update_noteq (by omega : qnum * f + 1 ≠ qnum * f) x qrow,
          Function.update_noteq (by omega : qnum * f + 2 ≠ qnum * f) x qrow]
    rw [hfun]
    exact hasDerivAt_FKy_q1 _ _ _ _
  · have hfun : (fun x : ℝ => FKcomp f 1 (Function.update qrow (qnum * f + 1) x)) =
        (fun x : ℝ => FKy (thetaBase f) (qrow (qnum * f + 0)) x (qrow (qnum * f + 2))) := by
      funext x
      simp only [FKcomp, Nat.add_zero]
      rw [Function.update_same,
          Function.update_noteq (by omega : qnum * f ≠ qnum * f + 1) x qrow,
          Function.update_noteq (by omega : qnum * f + 2 ≠ qnum * f + 1) x qrow]
    rw [hfun]
    exact hasDerivAt_FKy_q2 _ _ _ _
  · have hfun : (fun x : ℝ => FKcomp f 1 (Function.update qrow (qnum * f + 2) x)) =
        (fun x : ℝ => FKy (thetaBase f) (qrow (qnum * f + 0)) (qrow (qnum * f + 1)) x) := by
      funext x
      simp only [FKcomp, Nat.add_zero]
      rw [Function.update_same,
          Function.update_noteq (by omega : qnum * f ≠ qnum * f + 2) x qrow,
          Function.update_noteq (by omega : qnum * f + 1 ≠ qnum * f + 2) x qrow]
    rw [hfun]
    exact hasDerivAt_FKy_q3 _ _ _ _
  · have hfun : (fun x : ℝ => FKcomp f 2 (Function.update qrow (qnum * f + 0) x)) =
        (fun x : ℝ => FKz (thetaBase f) x (qrow (qnum * f + 1)) (qrow (qnum * f + 2))) := by
      funext x
      simp only [FKcomp, Nat.add_zero]
      rw [Function.update_same,
          Function.update_noteq (by omega : qnum * f + 1 ≠ qnum * f) x qrow,
          Function.update_noteq (by omega : qnum * f + 2 ≠ qnum * f) x qrow]
    rw [hfun]
    exact hasDerivAt_FKz_q1 _ _ _ _
  · have hfun : (fun x : ℝ => FKcomp f 2 (Function.update qrow (qnum * f + 1) x)) =
        (fun x : ℝ => FKz (thetaBase f) (qrow (qnum * f + 0)) x (qrow (qnum * f + 2))) := by
      funext x
      simp only [FKcomp, Nat.add_zero]
      rw [Function.update_same,
          Function.update_noteq (by omega : qnum * f ≠ qnum * f + 1) x qrow,
          Function.update_noteq (by omega : qnum * f + 2 ≠ qnum * f + 1) x qrow]
    rw [hfun]
    exact hasDerivAt_FKz_q2 _ _ _ _
  · have hfun : (fun x : ℝ => FKcomp f 2 (Function.update qrow (qnum * f + 2) x)) =
        (fun x : ℝ => FKz (thetaBase f) (qrow (qnum * f + 0)) (qrow (qnum * f + 1)) x) := by
      funext x
      simp only [FKcomp, Nat.add_zero]
      rw [Function.update_same,
          Function.update_noteq (by omega : qnum * f ≠ qnum * f + 2) x qrow,
          Function.update_noteq (by omega : qnum * f + 1 ≠ qnum * f + 2) x qrow]
    rw [hfun]
    exact hasDerivAt_FKz_q3 _ _ _ _

end Jacobian

/-- C7 : `get_jacobian` is the analytic Jacobian of the closed-form
fingertip map and is block-diagonal.  For every joint row and every entry
of the `3*fnum x fnum*qnum` hand Jacobian: when row `r` and column `c`
fall in the same finger block, the entry is the exact partial derivative
of fingertip coordinate `r % 3` of finger `r / 3` with respect to the
joint angle at index `c` (differentiating `FKcomp` along
`Function.update qrow c`); when they fall in different blocks the entry
is `0`. -/
theorem jacobian_is_FK_derivative (qrow : ℕ → ℝ)
    (r : Fin (3 * fnum)) (c : Fin (fnum * qnum)) :
    (((r : ℕ) / 3 = (c : ℕ) / 3) →
      HasDerivAt
        (fun x => FKcomp ((r : ℕ) / 3) ((r : ℕ) % 3) (Function.update qrow (c : ℕ) x))
        (get_jacobian qrow r c) (qrow (c : ℕ))) ∧
    (((r : ℕ) / 3 ≠ (c : ℕ) / 3) → get_jacobian qrow r c = 0) := by
  constructor
  · intro h
    have hc : (c : ℕ) = qnum * ((c : ℕ) / 3) + (c : ℕ) % 3 := by
      show (c : ℕ) = 3 * ((c : ℕ) / 3) + (c : ℕ) % 3
      omega
    simp only [get_jacobian, if_pos h]
    rw [h]
    have key := hasDerivAt_FKcomp ((c : ℕ) / 3) ((r : ℕ) % 3) ((c : ℕ) % 3)
      (Nat.mod_lt _ (by norm_num)) (Nat.mod_lt _ (by norm_num)) qrow
    rw [← hc] at key
    exact key
  · intro h
    simp only [get_jacobian, if_neg h]

/-- Witness for C7 at a concrete entry: row 1, column 4 lie in different
finger blocks, so the assembled Jacobian vanishes there. -/
theorem jacobian_is_FK_derivative_witness :
    get_jacobian (fun _ => 0) (⟨1, by decide⟩ : Fin (3 * fnum))
      (⟨4, by decide⟩ : Fin (fnum * qnum)) = 0 :=
  (jacobian_is_FK_derivative (fun _ => 0) ⟨1, by decide⟩ ⟨4, by decide⟩).2
    (by decide)

section Bounds

/-- `self.tf = dt * (nGrid - 1)` in `StaticObjectSystem.__init__`. -/
noncomputable def tfinal (nGrid : ℕ) (dt : ℝ) : ℝ := dt * ((nGrid : ℝ) - 1)

/-- `np.linspace(a, b, n)` entry `i`: `a + i * (b - a)/(n - 1)`. -/
noncomputable def linspace (a b : ℝ) (n : ℕ) (i : ℕ) : ℝ :=
  a + (i : ℝ) * ((b - a) / ((n : ℝ) - 1))

/-- The time-bound block of `path_constraints`:
`t_lb = np.linspace(0, tf, nGrid)` (and `t_ub = t_lb`). -/
noncomputable def tBoundRow (nGrid : ℕ) (dt : ℝ) : List (WithTop ℝ) :=
  (List.range nGrid).map fun i => ((linspace 0 (tfinal nGrid dt) nGrid i : ℝ) : WithTop ℝ)

/-- Column `j` of the tiled joint-position lower bound
(`one_finger_q_range[:,0]` tiled `fnum` times: joint `j % 3` of a finger). -/
noncomputable def qLoJ (j : ℕ) : ℝ :=
  if j % 3 = 0 then -0.33 else if j % 3 = 1 then 0 else -2.7

/-- Column `j` of the tiled joint-position upper bound
(`one_finger_q_range[:,1]` tiled `fnum` times). -/
noncomputable def qHiJ (j : ℕ) : ℝ :=
  if j % 3 = 0 then 1.0 else if j % 3 = 1 then 1.57 else 0

/-- `q_lb` of `path_constraints`: every row is the tiled lower-bound row,
except row `0` which is overwritten with `q0`. -/
noncomputable def qMatLb (nGrid : ℕ) (q0 : ℕ → ℝ) : List (List (WithTop ℝ)) :=
  (List.range nGrid).map fun i =>
    (List.range (fnum * qnum)).map fun j =>
      if i = 0 then ((q0 j : ℝ) : WithTop ℝ) else ((qLoJ j : ℝ) : WithTop ℝ)

/-- `q_ub` of `path_constraints`: tiled upper bounds, row `0` pinned to `q0`. -/
noncomputable def qMatUb (nGrid : ℕ) (q0 : ℕ → ℝ) : List (List (WithTop ℝ)) :=
  (List.range nGrid).map fun i =>
    (List.range (fnum * qnum)).map fun j =>
      if i = 0 then ((q0 j : ℝ) : WithTop ℝ) else ((qHiJ j : ℝ) : WithTop ℝ)

/-- One entry of `dq_lb` / `dq_ub`: the tiled bound `base` (`-2` or `2`),
overwritten at row `0` by `dq0` and at row `nGrid - 1` by `dq_end` when
supplied.  The `dq_end` write happens after the `dq0` write in the source,
so it takes precedence. -/
noncomputable def dqBound (nGrid : ℕ) (dq0 dqe : Option (ℕ → ℝ)) (base : ℝ)
    (i j : ℕ) : ℝ :=
  if i = nGrid - 1 ∧ dqe.isSome then (dqe.getD fun _ => 0) j
  else if i = 0 ∧ dq0.isSome then (dq0.getD fun _ => 0) j
  else base

/-- `dq_lb` of `path_constraints`. -/
noncomputable def dqMatLb (nGrid : ℕ) (dq0 dqe : Option (ℕ → ℝ)) :
    List (List (WithTop ℝ)) :=
  (List.range nGrid).map fun i =>
    (List.range (fnum * qnum)).map fun j =>
      ((dqBound nGrid dq0 dqe (-2) i j : ℝ) : WithTop ℝ)

/-- `dq_ub` of `path_constraints`. -/
noncomputable def dqMatUb (nGrid : ℕ) (dq0 dqe : Option (ℕ → ℝ)) :
    List (List (WithTop ℝ)) :=
  (List.range nGrid).map fun i =>
    (List.range (fnum * qnum)).map fun j =>
      ((dqBound nGrid dq0 dqe 2 i j : ℝ) : WithTop ℝ)

/-- `a_lb = np.zeros(a.shape)`. -/
noncomputable def aLbRow : List (WithTop ℝ) :=
  (List.range (3 * fnum)).map fun _ => ((0 : ℝ) : WithTop ℝ)

/-- `a_ub = np.ones(a.shape) * np.inf`. -/
noncomputable def aUbRow : List (WithTop ℝ) :=
  (List.range (3 * fnum)).map fun _ => (⊤ : WithTop ℝ)

/-- `z_lb` of `path_constraints`, assembled with the codec itself:
`decvar_pack(t_lb, s_pack(q_lb, dq_lb), a_lb)`. -/
noncomputable def z_lb (nGrid : ℕ) (dt : ℝ) (q0 : ℕ → ℝ)
    (dq0 dqe : Option (ℕ → ℝ)) : List (WithTop ℝ) :=
  decvar_pack (tBoundRow nGrid dt) (s_pack (qMatLb nGrid q0) (dqMatLb nGrid dq0 dqe))
    aLbRow

/-- `z_ub` of `path_constraints`: same time block (`t_ub = t_lb`). -/
noncomputable def z_ub (nGrid : ℕ) (dt : ℝ) (q0 : ℕ → ℝ)
    (dq0 dqe : Option (ℕ → ℝ)) : List (WithTop ℝ) :=
  decvar_pack (tBoundRow nGrid dt) (s_pack (qMatUb nGrid q0) (dqMatUb nGrid dq0 dqe))
    aUbRow

/-- Pointwise relation between two `range`-maps. -/
lemma forall₂_map_range {β γ : Type*} (R : β → γ → Prop) (n : ℕ)
    (f : ℕ → β) (g : ℕ → γ) (h : ∀ i, R (f i) (g i)) :
    List.Forall₂ R ((List.range n).map f) ((List.range n).map g) := by
  induction n with
  | zero => simp
  | succ n ih =>
    rw [List.range_succ, List.map_append, List.map_append]
    exact List.rel_append ih (List.Forall₂.cons (h n) List.Forall₂.nil)

lemma qLoJ_le_qHiJ (j : ℕ) : qLoJ j ≤ qHiJ j := by
  unfold qLoJ qHiJ
  split_ifs <;> norm_num

lemma dqBound_le (nGrid : ℕ) (dq0 dqe : Option (ℕ → ℝ)) (i j : ℕ) :
    dqBound nGrid dq0 dqe (-2) i j ≤ dqBound nGrid dq0 dqe 2 i j := by
  unfold dqBound
  split_ifs <;> norm_num

lemma length_tBoundRow (nGrid : ℕ) (dt : ℝ) : (tBoundRow nGrid dt).length = nGrid := by
  simp [tBoundRow]

lemma linspace_uniform (nGrid : ℕ) (dt : ℝ) (hn : 2 ≤ nGrid) (i : ℕ) :
    linspace 0 (tfinal nGrid dt) nGrid i = (i : ℝ) * dt := by
  unfold linspace tfinal
  have h1 : ((nGrid : ℝ) - 1) ≠ 0 := by
    have h2 : (2 : ℝ) ≤ (nGrid : ℝ) := by exact_mod_cast hn
    linarith
  field_simp

end Bounds

/-- C6 : for every valid configuration (`2 <= nGrid`, `0 < dt`), every
initial configuration `q0`, and any optionally supplied boundary
velocities, the bounds generator of `path_constraints` produces
`z_lb <= z_ub` elementwise; moreover `z_lb = z_ub` on the whole time
block, the time block equals the uniform spacing `i * dt` over `[0, tf]`,
and on grid index 0 of the joint-position block both bounds equal `q0`. -/
theorem bounds_sound (nGrid : ℕ) (dt : ℝ) (q0 : ℕ → ℝ)
    (dq0 dqe : Option (ℕ → ℝ)) (hn : 2 ≤ nGrid) (_hdt : 0 < dt) :
    List.Forall₂ (· ≤ ·) (z_lb nGrid dt q0 dq0 dqe) (z_ub nGrid dt q0 dq0 dqe) ∧
    List.take nGrid (z_lb nGrid dt q0 dq0 dqe) =
      List.take nGrid (z_ub nGrid dt q0 dq0 dqe) ∧
    (∀ i, i < nGrid →
      (z_lb nGrid dt q0 dq0 dqe)[i]? = some (((i : ℝ) * dt : ℝ) : WithTop ℝ) ∧
      (z_ub nGrid dt q0 dq0 dqe)[i]? = some (((i : ℝ) * dt : ℝ) : WithTop ℝ)) ∧
    (∀ j, j < fnum * qnum →
      (z_lb nGrid dt q0 dq0 dqe)[nGrid + j]? = some ((q0 j : ℝ) : WithTop ℝ) ∧
      (z_ub nGrid dt q0 dq0 dqe)[nGrid + j]? = some ((q0 j : ℝ) : WithTop ℝ)) := by
  have hq : List.Forall₂ (· ≤ ·) (qMatLb nGrid q0).flatten (qMatUb nGrid q0).flatten := by
    apply List.rel_flatten
    apply forall₂_map_range
    intro i
    apply forall₂_map_range
    intro j
    by_cases hi : i = 0
    · simp [hi]
    · simp only [hi, if_false]
      exact WithTop.coe_le_coe.mpr (qLoJ_le_qHiJ j)
  have hdq : List.Forall₂ (· ≤ ·) (dqMatLb nGrid dq0 dqe).flatten
      (dqMatUb nGrid dq0 dqe).flatten := by
    apply List.rel_flatten
    apply forall₂_map_range
    intro i
    apply forall₂_map_range
    intro j
    exact WithTop.coe_le_coe.mpr (dqBound_le nGrid dq0 dqe i j)
  have ha : List.Forall₂ (· ≤ ·) aLbRow aUbRow := by
    apply forall₂_map_range
    intro _
    exact le_top
  have ht : List.Forall₂ (· ≤ ·) (tBoundRow nGrid dt) (tBoundRow nGrid dt) :=
    List.forall₂_same.mpr fun x _ => le_refl x
  refine ⟨?_, ?_, ?_, ?_⟩
  · exact List.rel_append (List.rel_append ht (List.rel_append hq hdq)) ha
  · unfold z_lb z_ub decvar_pack
    rw [List.append_assoc, List.append_assoc,
      List.take_left' (length_tBoundRow nGrid dt),
      List.take_left' (length_tBoundRow nGrid dt)]
  · intro i hi
    have hi' : i < (tBoundRow nGrid dt).length := by
      rw [length_tBoundRow]; exact hi
    have hval : (tBoundRow nGrid dt)[i]? =
        some (((i : ℝ) * dt : ℝ) : WithTop ℝ) := by
      unfold tBoundRow
      rw [List.getElem?_map, List.getElem?_range hi, Option.map_some',
        linspace_uniform nGrid dt hn i]
    constructor
    · unfold z_lb decvar_pack
      rw [List.append_assoc, List.getElem?_append_left (by rwa [length_tBoundRow])]
      exact hval
    · unfold z_ub decvar_pack
      rw [List.append_assoc, List.getElem?_append_left (by rwa [length_tBoundRow])]
      exact hval
  · intro j hj
    obtain ⟨m, hm⟩ : ∃ m, nGrid = m + 1 := ⟨nGrid - 1, by omega⟩
    have hrow0 : ∀ v : ℕ → WithTop ℝ,
        ((List.range (fnum * qnum)).map v)[j]? = some (v j) := by
      intro v
      rw [List.getElem?_map, List.getElem?_range hj, Option.map_some']
    have hlen9 : ∀ v : ℕ → WithTop ℝ,
        ((List.range (fnum * qnum)).map v).length = fnum * qnum := by
      intro v; simp
    constructor
    · unfold z_lb decvar_pack s_pack qMatLb
      rw [List.append_assoc,
        List.getElem?_append_right (by rw [length_tBoundRow]; omega),
        length_tBoundRow, Nat.add_sub_cancel_left, hm,
        List.range_succ_eq_map, List.map_cons, List.flatten_cons,
        List.append_assoc, List.append_assoc,
        List.getElem?_append_left (by rw [hlen9]; exact hj)]
      simp only [if_pos rfl]
      exact hrow0 _
    · unfold z_ub decvar_pack s_pack qMatUb
      rw [List.append_assoc,
        List.getElem?_append_right (by rw [length_tBoundRow]; omega),
        length_tBoundRow, Nat.add_sub_cancel_left, hm,
        List.range_succ_eq_map, List.map_cons, List.flatten_cons,
        List.append_assoc, List.append_assoc,
        List.getElem?_append_left (by rw [hlen9]; exact hj)]
      simp only [if_pos rfl]
      exact hrow0 _

/-- Witness for C6 at `nGrid = 2`, `dt = 1`, `q0 = 0`, no boundary
velocities. -/
theorem bounds_sound_witness :
    List.Forall₂ (· ≤ ·) (z_lb 2 1 (fun _ => 0) none none)
      (z_ub 2 1 (fun _ => 0) none none) ∧
    List.take 2 (z_lb 2 1 (fun _ => 0) none none) =
      List.take 2 (z_ub 2 1 (fun _ => 0) none none) ∧
    (∀ i : ℕ, i < 2 →
      (z_lb 2 1 (fun _ => 0) none none)[i]? = some (((i : ℝ) * 1 : ℝ) : WithTop ℝ) ∧
      (z_ub 2 1 (fun _ => 0) none none)[i]? = some (((i : ℝ) * 1 : ℝ) : WithTop ℝ)) ∧
    (∀ j : ℕ, j < fnum * qnum →
      (z_lb 2 1 (fun _ => 0) none none)[2 + j]? =
        some (((fun _ => (0 : ℝ)) j : ℝ) : WithTop ℝ) ∧
      (z_ub 2 1 (fun _ => 0) none none)[2 + j]? =
        some (((fun _ => (0 : ℝ)) j : ℝ) : WithTop ℝ)) :=
  bounds_sound 2 1 (fun _ => 0) none none (by norm_num) (by norm_num)

end RRC
